import Mathlib

/-!
Shallow embedding of `src/01_assoziation.py`, a small association-rule miner.

Modelling conventions:
* Python floats are modelled as rationals (`ℚ`); the scoring formulas are
  exact rational arithmetic.
* Python `dict`/`defaultdict` values are modelled as insertion-ordered
  association lists (`List (Itemset × Nat)`), which is how CPython dicts
  iterate.
* The two runtime failures the core can raise (`KeyError` on a missing dict
  key, `ZeroDivisionError`) are modelled by `Option`-valued functions that
  return `none` exactly where Python would raise.
* `itertools.combinations` is modelled by `combinations` below, which emits
  the length-`r` subsequences of its input in the same
  lexicographic-by-position order.
-/

/-- An itemset: a Python `tuple[str, ...]` used as a dict key. -/
abbrev Itemset := List String

/-- A Python dict from itemsets to counts, as an insertion-ordered
association list. -/
abbrev Dict := List (Itemset × Nat)

/-- `itertools.combinations(l, r)`: every length-`r` subsequence of `l`,
enumerated in lexicographic-by-position order. -/
def combinations {α : Type} : List α → Nat → List (List α)
  | _, 0 => [[]]
  | [], _ + 1 => []
  | a :: as, r + 1 =>
      (combinations as r).map (fun u => a :: u) ++ combinations as (r + 1)

/-- `generate_item_sets` (src lines 67-74): for `i` in `1 .. max_length`,
extend the result with all size-`i` combinations of the transaction. -/
def generate_item_sets (transaction : List String) (max_length : Nat) :
    List Itemset :=
  (List.range' 1 max_length).flatMap (fun i => combinations transaction i)

/-- `defaultdict(int)` update `d[k] += 1`: increment the existing entry in
place, or append a fresh `(k, 1)` entry at the end (CPython dicts preserve
first-insertion order). -/
def dictIncr (d : Dict) (k : Itemset) : Dict :=
  match d with
  | [] => [(k, 1)]
  | p :: rest => if p.1 = k then (k, p.2 + 1) :: rest else p :: dictIncr rest k

/-- `count_item_sets` (src lines 76-84): for every transaction, increment the
counter of every itemset it generates. -/
def count_item_sets (transactions : List (List String)) : Dict :=
  transactions.foldl
    (fun d t => (generate_item_sets t t.length).foldl dictIncr d) []

/-- Python dict lookup `d[k]`, returning `none` where Python raises
`KeyError`. -/
def dictGet (d : Dict) (k : Itemset) : Option Nat :=
  match d with
  | [] => none
  | p :: rest => if p.1 = k then some p.2 else dictGet rest k

/-- The count recorded for `k` (0 when absent); convenience for stating
properties of the dicts. -/
def dcount (d : Dict) (k : Itemset) : Nat :=
  (dictGet d k).getD 0

/-- The keys of a dict, in iteration (insertion) order. -/
def keys (d : Dict) : List Itemset :=
  d.map Prod.fst

/-- Python division `a / b`, returning `none` where Python raises
`ZeroDivisionError`. -/
def checkedDiv (a b : ℚ) : Option ℚ :=
  if b = 0 then none else some (a / b)

/-- `filter_item_sets` (src lines 86-90): the dict comprehension keeping the
entries with `count / total_transactions >= min_support`, evaluated in
iteration order; the division fails when `total_transactions = 0` and there
is at least one entry to test. -/
def filter_item_sets (min_support : ℚ) (item_set_counts : Dict)
    (total_transactions : Nat) : Option Dict :=
  match item_set_counts with
  | [] => some []
  | p :: rest =>
      if total_transactions = 0 then none
      else do
        let tail ← filter_item_sets min_support rest total_transactions
        if min_support ≤ (p.2 : ℚ) / (total_transactions : ℚ) then
          pure (p :: tail)
        else
          pure tail

/-- One emitted association rule: the Python dict
`{'x': x, 'y/x': y, 'conf': confidence, 'lift': lift}` (src line 106).
`y` is a Python `set`, hence a `Finset`. -/
structure Rule where
  x : Itemset
  y : Finset String
  conf : ℚ
  lift : ℚ
  deriving DecidableEq

/-- The body of the innermost loop of `generate_rules` (src lines 102-104)
for one antecedent `x`: compute `y = set(item_set) - set(x)`,
`lift = d[item_set] / total / antecedentFreqProd` and
`confidence = d[item_set] / d[x]`, failing exactly where Python would. -/
def ruleOf (fis : Dict) (total : Nat) (antecedentFreqProd : ℚ)
    (item_set x : Itemset) : Option Rule := do
  let y := item_set.toFinset \ x.toFinset
  let cS ← dictGet fis item_set
  let s ← checkedDiv (cS : ℚ) (total : ℚ)
  let lift ← checkedDiv s antecedentFreqProd
  let cS2 ← dictGet fis item_set
  let cx ← dictGet fis x
  let conf ← checkedDiv (cS2 : ℚ) (cx : ℚ)
  pure ⟨x, y, conf, lift⟩

/-- The innermost loop of `generate_rules` (src lines 101-106): for each
antecedent `x`, build its rule and append it to the accumulator when
`confidence >= min_conf`. -/
def processAntecedents (min_conf : ℚ) (fis : Dict) (total : Nat)
    (antecedentFreqProd : ℚ) (item_set : Itemset) :
    List Itemset → List Rule → Option (List Rule)
  | [], acc => some acc
  | x :: rest, acc => do
      let r ← ruleOf fis total antecedentFreqProd item_set x
      processAntecedents min_conf fis total antecedentFreqProd item_set rest
        (if min_conf ≤ r.conf then acc ++ [r] else acc)

/-- The list comprehension `[d[x] / total for x in antecedents]`
(src line 100), evaluated left to right, failing at the first missing key or
zero division. -/
def relSupports (fis : Dict) (total : Nat) : List Itemset → Option (List ℚ)
  | [] => some []
  | x :: rest => do
      let cx ← dictGet fis x
      let q ← checkedDiv (cx : ℚ) (total : ℚ)
      let qs ← relSupports fis total rest
      pure (q :: qs)

/-- One iteration of the middle loop of `generate_rules` (src lines 98-106),
for one antecedent size `i`: enumerate the size-`i` candidates, compute the
shared denominator `antecedentFreqProd = math.prod([...])`, then run the
inner loop over the candidates. -/
def sliceStep (min_conf : ℚ) (fis : Dict) (total : Nat) (item_set : Itemset)
    (i : Nat) (acc : List Rule) : Option (List Rule) := do
  let antecedents := combinations item_set i
  let rels ← relSupports fis total antecedents
  processAntecedents min_conf fis total rels.prod item_set antecedents acc

/-- The middle loop of `generate_rules`: `for i in range(1, len(item_set))`. -/
def itemsetLoop (min_conf : ℚ) (fis : Dict) (total : Nat)
    (item_set : Itemset) : List Nat → List Rule → Option (List Rule)
  | [], acc => some acc
  | i :: is, acc => do
      let acc2 ← sliceStep min_conf fis total item_set i acc
      itemsetLoop min_conf fis total item_set is acc2

/-- The outer loop of `generate_rules`: `for item_set in frequent_item_sets`
iterates over the dict's keys in insertion order. -/
def rulesLoop (min_conf : ℚ) (fis : Dict) (total : Nat) :
    List Itemset → List Rule → Option (List Rule)
  | [], acc => some acc
  | S :: Ss, acc => do
      let acc2 ← itemsetLoop min_conf fis total S
        (List.range' 1 (S.length - 1)) acc
      rulesLoop min_conf fis total Ss acc2

/-- `generate_rules` (src lines 92-107). -/
def generate_rules (min_conf : ℚ) (frequent_item_sets : Dict)
    (total_transactions : Nat) : Option (List Rule) :=
  rulesLoop min_conf frequent_item_sets total_transactions
    (keys frequent_item_sets) []

/-- `analyze_associations` (src lines 58-65). -/
def analyze_associations (min_support min_conf : ℚ)
    (cells : List (List String)) : Option (List Rule) := do
  let item_set_counts := count_item_sets cells
  let total_transactions := cells.length
  let frequent_item_sets ←
    filter_item_sets min_support item_set_counts total_transactions
  generate_rules min_conf frequent_item_sets total_transactions

/-- Modelled from the spec, for comparison with `generate_rules` (§4.5):
the rules of the slice of `item_set` at antecedent size `i`, with the shared
denominator `D_i` (the product of the relative supports of all size-`i`
candidates), each candidate emitted iff its confidence meets `min_conf`, in
candidate-enumeration order. -/
def sliceSpec (min_conf : ℚ) (fis : Dict) (total : Nat) (item_set : Itemset)
    (i : Nat) : List Rule :=
  let antecedents := combinations item_set i
  let D := (antecedents.map (fun c => (dcount fis c : ℚ) / (total : ℚ))).prod
  antecedents.flatMap (fun x =>
    let conf := (dcount fis item_set : ℚ) / (dcount fis x : ℚ)
    if min_conf ≤ conf then
      [⟨x, item_set.toFinset \ x.toFinset, conf,
        ((dcount fis item_set : ℚ) / (total : ℚ)) / D⟩]
    else [])

/-- Modelled from the spec, for comparison with `generate_rules` (§4.5):
rules grouped by frequent itemset in dict-iteration order, then by ascending
antecedent size, then in candidate-enumeration order, with no secondary
reordering. -/
def rulesSpec (min_conf : ℚ) (fis : Dict) (total : Nat) : List Rule :=
  (keys fis).flatMap (fun S =>
    (List.range' 1 (S.length - 1)).flatMap (fun i =>
      sliceSpec min_conf fis total S i))

/-! ### Properties of `combinations` -/

theorem mem_combinations {α : Type} {l : List α} {r : Nat} {k : List α} :
    k ∈ combinations l r ↔ k.Sublist l ∧ k.length = r := by
  induction l generalizing r k with
  | nil =>
    cases r with
    | zero =>
      simp only [combinations, List.mem_singleton, List.sublist_nil]
      constructor
      · rintro rfl; exact ⟨rfl, rfl⟩
      · rintro ⟨rfl, _⟩; rfl
    | succ r =>
      simp only [combinations, List.not_mem_nil, false_iff, not_and]
      intro hs
      rw [List.sublist_nil.mp hs]
      simp
  | cons a as ih =>
    cases r with
    | zero =>
      simp only [combinations, List.mem_singleton]
      constructor
      · rintro rfl; exact ⟨List.nil_sublist _, rfl⟩
      · rintro ⟨_, hlen⟩; exact List.length_eq_zero.mp hlen
    | succ r =>
      simp only [combinations, List.mem_append, List.mem_map]
      constructor
      · rintro (⟨u, hu, rfl⟩ | h)
        · obtain ⟨hs, hlen⟩ := ih.mp hu
          exact ⟨hs.cons₂ a, by simp [hlen]⟩
        · obtain ⟨hs, hlen⟩ := ih.mp h
          exact ⟨hs.cons a, hlen⟩
      · rintro ⟨hs, hlen⟩
        cases hs with
        | cons _ h => exact Or.inr (ih.mpr ⟨h, hlen⟩)
        | cons₂ _ h =>
          exact Or.inl ⟨_, ih.mpr ⟨h, by simpa using hlen⟩, rfl⟩

theorem combinations_length {α : Type} (l : List α) (r : Nat) :
    (combinations l r).length = l.length.choose r := by
  induction l generalizing r with
  | nil => cases r <;> simp [combinations]
  | cons a as ih =>
    cases r with
    | zero => simp [combinations]
    | succ r =>
      simp [combinations, ih, Nat.choose_succ_succ]

theorem combinations_nodup {α : Type} {l : List α} (hl : l.Nodup) (r : Nat) :
    (combinations l r).Nodup := by
  induction l generalizing r with
  | nil => cases r <;> simp [combinations]
  | cons a as ih =>
    cases r with
    | zero => simp [combinations]
    | succ r =>
      have ha : a ∉ as := (List.nodup_cons.mp hl).1
      have has : as.Nodup := (List.nodup_cons.mp hl).2
      have hinj : Function.Injective (fun u : List α => a :: u) :=
        fun _ _ e => by injection e
      refine List.Nodup.append ?_ (ih has (r + 1)) ?_
      · exact (ih has r).map hinj
      · intro k hk1 hk2
        obtain ⟨u, _, rfl⟩ := List.mem_map.mp hk1
        have hs := (mem_combinations.mp hk2).1
        exact ha (hs.subset (List.mem_cons_self a u))

theorem combinations_pairwise_lex {α : Type} {R : α → α → Prop} {l : List α}
    (hl : l.Pairwise R) (r : Nat) :
    (combinations l r).Pairwise (List.Lex R) := by
  induction l generalizing r with
  | nil => cases r <;> simp [combinations]
  | cons a as ih =>
    cases r with
    | zero => simp [combinations]
    | succ r =>
      obtain ⟨hAll, has⟩ := List.pairwise_cons.mp hl
      rw [combinations, List.pairwise_append]
      refine ⟨?_, ih has (r + 1), ?_⟩
      · exact (ih has r).map _ (fun _ _ h => List.Lex.cons h)
      · intro u hu w hw
        obtain ⟨u', _, rfl⟩ := List.mem_map.mp hu
        obtain ⟨hws, hwlen⟩ := mem_combinations.mp hw
        cases w with
        | nil => simp at hwlen
        | cons b w' =>
          exact List.Lex.rel (hAll b (hws.subset (List.mem_cons_self b w')))

/-! ### Properties of `generate_item_sets` -/

theorem mem_generate_item_sets {t : List String} {m : Nat} {k : Itemset} :
    k ∈ generate_item_sets t m ↔
      k.Sublist t ∧ 1 ≤ k.length ∧ k.length ≤ m := by
  simp only [generate_item_sets, List.mem_flatMap, List.mem_range'_1]
  constructor
  · rintro ⟨i, hi, hk⟩
    obtain ⟨hs, hlen⟩ := mem_combinations.mp hk
    exact ⟨hs, by omega⟩
  · rintro ⟨hs, h1, h2⟩
    exact ⟨k.length, by omega, mem_combinations.mpr ⟨hs, rfl⟩⟩

theorem mem_generate_item_sets_self {t : List String} {k : Itemset} :
    k ∈ generate_item_sets t t.length ↔ k ≠ [] ∧ k.Sublist t := by
  rw [mem_generate_item_sets]
  constructor
  · rintro ⟨hs, h1, _⟩
    exact ⟨fun h => by simp [h] at h1, hs⟩
  · rintro ⟨hne, hs⟩
    refine ⟨hs, ?_, hs.length_le⟩
    cases k with
    | nil => exact absurd rfl hne
    | cons a u => simp

theorem list_range_map_sum (n : Nat) (f : Nat → Nat) :
    ((List.range n).map f).sum = ∑ i ∈ Finset.range n, f i := by
  induction n with
  | zero => simp
  | succ n ih => rw [List.range_succ, Finset.sum_range_succ, ← ih]; simp

theorem generate_item_sets_length (t : List String) :
    (generate_item_sets t t.length).length = 2 ^ t.length - 1 := by
  have h1 : (generate_item_sets t t.length).length
      = ((List.range' 1 t.length).map (fun i => t.length.choose i)).sum := by
    rw [generate_item_sets, List.length_flatMap]
    congr 1
    exact List.map_congr_left (fun i _ => combinations_length t i)
  have h2 : ((List.range (t.length + 1)).map (fun i => t.length.choose i)).sum
      = 2 ^ t.length := by
    rw [list_range_map_sum]; exact Nat.sum_range_choose t.length
  rw [List.range_eq_range', List.range'_succ, List.map_cons, List.sum_cons,
    Nat.choose_zero_right] at h2
  simp only [Nat.zero_add] at h2
  omega

theorem generate_item_sets_nodup {t : List String} (ht : t.Nodup) :
    (generate_item_sets t t.length).Nodup := by
  rw [generate_item_sets, List.nodup_flatMap]
  refine ⟨fun i _ => combinations_nodup ht i, ?_⟩
  have : (List.range' 1 t.length).Pairwise (· < ·) := List.pairwise_lt_range' ..
  refine this.imp ?_
  intro i j hij
  intro k hk1 hk2
  have h1 := (mem_combinations.mp hk1).2
  have h2 := (mem_combinations.mp hk2).2
  omega

theorem generate_item_sets_pairwise {t : List String}
    (ht : t.Pairwise (· < ·)) (m : Nat) :
    (generate_item_sets t m).Pairwise
      (fun u v => u.length < v.length
        ∨ (u.length = v.length ∧ List.Lex (· < ·) u v)) := by
  rw [generate_item_sets, List.flatMap_def, List.pairwise_flatten]
  constructor
  · intro l hl
    obtain ⟨i, _, rfl⟩ := List.mem_map.mp hl
    refine (combinations_pairwise_lex ht i).imp_of_mem ?_
    intro u v hu hv h
    refine Or.inr ⟨?_, h⟩
    rw [(mem_combinations.mp hu).2, (mem_combinations.mp hv).2]
  · rw [List.pairwise_map]
    have hr : (List.range' 1 m).Pairwise (· < ·) := List.pairwise_lt_range' ..
    refine hr.imp ?_
    intro i j hij u hu v hv
    refine Or.inl ?_
    rw [(mem_combinations.mp hu).2, (mem_combinations.mp hv).2]
    exact hij

theorem count_eq_one_of_nodup_mem {α : Type} [BEq α] [LawfulBEq α]
    {l : List α} {a : α} (hn : l.Nodup) (ha : a ∈ l) : l.count a = 1 := by
  induction l with
  | nil => simp at ha
  | cons b l ih =>
    rw [List.count_cons]
    rcases List.mem_cons.mp ha with rfl | h
    · have hnotin : a ∉ l := (List.nodup_cons.mp hn).1
      simp [List.count_eq_zero.mpr hnotin]
    · have hb : ¬(a = b) := by
        rintro rfl
        exact (List.nodup_cons.mp hn).1 h
      rw [ih (List.nodup_cons.mp hn).2 h]
      have hb2 : ¬(b = a) := fun e => hb e.symm
      simp [hb, hb2]

theorem count_generate_item_sets {t : List String} (ht : t.Nodup)
    (k : Itemset) :
    (generate_item_sets t t.length).count k
      = if k ≠ [] ∧ k.Sublist t then 1 else 0 := by
  by_cases hk : k ∈ generate_item_sets t t.length
  · rw [count_eq_one_of_nodup_mem (generate_item_sets_nodup ht) hk,
      if_pos (mem_generate_item_sets_self.mp hk)]
  · rw [List.count_eq_zero.mpr hk,
      if_neg (fun h => hk (mem_generate_item_sets_self.mpr h))]

/-! ### Properties of the count dict -/

theorem dictGet_dictIncr (d : Dict) (k k' : Itemset) :
    dictGet (dictIncr d k) k' =
      if k' = k then some (dcount d k + 1) else dictGet d k' := by
  induction d with
  | nil =>
    by_cases h : k' = k
    · subst h; simp [dictIncr, dictGet, dcount]
    · simp [dictIncr, dictGet, h, Ne.symm h]
  | cons p rest ih =>
    by_cases h1 : p.1 = k
    · subst h1
      by_cases h2 : k' = p.1
      · subst h2; simp [dictIncr, dictGet, dcount]
      · simp [dictIncr, dictGet, dcount, h2, Ne.symm h2]
    · by_cases h2 : k' = k
      · subst h2
        simp [dictIncr, dictGet, dcount, h1, ih]
      · by_cases h3 : p.1 = k'
        · simp [dictIncr, dictGet, h1, h2, h3]
        · simp [dictIncr, dictGet, h1, h2, h3, ih]

theorem dcount_dictIncr (d : Dict) (k k' : Itemset) :
    dcount (dictIncr d k) k' = dcount d k' + if k' = k then 1 else 0 := by
  rw [dcount, dictGet_dictIncr]
  by_cases h : k' = k
  · subst h; simp [dcount]
  · simp [h, dcount]

theorem dcount_foldl_dictIncr (l : List Itemset) (d : Dict) (k : Itemset) :
    dcount (l.foldl dictIncr d) k = dcount d k + l.count k := by
  induction l generalizing d with
  | nil => simp
  | cons a l ih =>
    rw [List.foldl_cons, ih, dcount_dictIncr, List.count_cons]
    by_cases h : k = a
    · subst h
      simp only [if_pos rfl, beq_self_eq_true, if_true]
      omega
    · have h2 : ¬(a = k) := fun e => h e.symm
      rw [if_neg h, if_neg (by simpa using h2)]
      omega

theorem dcount_foldl_transactions (ts : List (List String)) (d : Dict)
    (k : Itemset) :
    dcount (ts.foldl
        (fun d t => (generate_item_sets t t.length).foldl dictIncr d) d) k
      = dcount d k
        + (ts.map (fun t => (generate_item_sets t t.length).count k)).sum := by
  induction ts generalizing d with
  | nil => simp
  | cons t ts ih =>
    rw [List.foldl_cons, ih, dcount_foldl_dictIncr, List.map_cons,
      List.sum_cons]
    omega

theorem dcount_count_item_sets (ts : List (List String)) (k : Itemset) :
    dcount (count_item_sets ts) k
      = (ts.map (fun t => (generate_item_sets t t.length).count k)).sum := by
  have h := dcount_foldl_transactions ts [] k
  simpa [count_item_sets, dcount, dictGet] using h

/-- Under duplicate-free transactions, the recorded count of `k` is the
number of transactions that contain `k` as a non-empty subset. -/
theorem dcount_count_item_sets_nodup {ts : List (List String)} (k : Itemset)
    (h : ∀ t ∈ ts, t.Nodup) :
    dcount (count_item_sets ts) k
      = ts.countP (fun t => decide (k ≠ [] ∧ k.Sublist t)) := by
  rw [dcount_count_item_sets]
  induction ts with
  | nil => simp
  | cons t ts ih =>
    rw [List.map_cons, List.sum_cons, List.countP_cons,
      count_generate_item_sets (h t (List.mem_cons_self t ts)) k,
      ih (fun u hu => h u (List.mem_cons_of_mem t hu))]
    by_cases hc : k ≠ [] ∧ k.Sublist t
    · rw [if_pos hc, if_pos (by simpa using hc)]
      omega
    · rw [if_neg hc, if_neg (by simpa using hc)]
      omega

theorem keys_cons (p : Itemset × Nat) (d : Dict) :
    keys (p :: d) = p.1 :: keys d := rfl

theorem keys_dictIncr_mem {d : Dict} {k : Itemset} (hk : k ∈ keys d) :
    keys (dictIncr d k) = keys d := by
  induction d with
  | nil => simp [keys] at hk
  | cons p rest ih =>
    by_cases h : p.1 = k
    · subst h
      simp [dictIncr, keys]
    · rw [keys_cons, List.mem_cons] at hk
      rcases hk with hk | hk
      · exact absurd hk.symm h
      · rw [dictIncr, if_neg h, keys_cons, keys_cons, ih hk]

theorem keys_dictIncr_not_mem {d : Dict} {k : Itemset} (hk : k ∉ keys d) :
    keys (dictIncr d k) = keys d ++ [k] := by
  induction d with
  | nil => simp [dictIncr, keys]
  | cons p rest ih =>
    rw [keys_cons, List.mem_cons] at hk
    push_neg at hk
    rw [dictIncr, if_neg (fun e => hk.1 e.symm), keys_cons, keys_cons,
      ih hk.2, List.cons_append]

theorem keys_nodup_dictIncr {d : Dict} (h : (keys d).Nodup) (k : Itemset) :
    (keys (dictIncr d k)).Nodup := by
  by_cases hk : k ∈ keys d
  · rwa [keys_dictIncr_mem hk]
  · rw [keys_dictIncr_not_mem hk, List.nodup_append]
    refine ⟨h, List.nodup_singleton k, ?_⟩
    intro a ha hmem
    rw [List.mem_singleton] at hmem
    subst hmem
    exact hk ha

theorem keys_nodup_foldl_dictIncr (l : List Itemset) {d : Dict}
    (h : (keys d).Nodup) : (keys (l.foldl dictIncr d)).Nodup := by
  induction l generalizing d with
  | nil => exact h
  | cons a l ih => exact ih (keys_nodup_dictIncr h a)

theorem count_item_sets_keys_nodup (ts : List (List String)) :
    (keys (count_item_sets ts)).Nodup := by
  rw [count_item_sets]
  suffices h : ∀ d : Dict, (keys d).Nodup →
      (keys (ts.foldl
        (fun d t => (generate_item_sets t t.length).foldl dictIncr d)
        d)).Nodup by
    exact h [] (by simp [keys])
  induction ts with
  | nil => intro d hd; exact hd
  | cons t ts ih =>
    intro d hd
    exact ih _ (keys_nodup_foldl_dictIncr _ hd)

theorem dictIncr_values {d : Dict} (h : ∀ p ∈ d, 1 ≤ p.2) (k : Itemset) :
    ∀ p ∈ dictIncr d k, 1 ≤ p.2 := by
  induction d with
  | nil =>
    intro p hp
    rw [dictIncr, List.mem_singleton] at hp
    subst hp
    exact Nat.le_refl 1
  | cons q rest ih =>
    intro p hp
    rw [dictIncr] at hp
    by_cases hq : q.1 = k
    · rw [if_pos hq, List.mem_cons] at hp
      rcases hp with rfl | hm
      · exact Nat.le_add_left 1 q.2
      · exact h p (List.mem_cons_of_mem q hm)
    · rw [if_neg hq, List.mem_cons] at hp
      rcases hp with rfl | hm
      · exact h p (List.mem_cons_self p rest)
      · exact ih (fun r hr => h r (List.mem_cons_of_mem q hr)) p hm

theorem foldl_dictIncr_values (l : List Itemset) {d : Dict}
    (h : ∀ p ∈ d, 1 ≤ p.2) : ∀ p ∈ l.foldl dictIncr d, 1 ≤ p.2 := by
  induction l generalizing d with
  | nil => exact h
  | cons a l ih => exact ih (dictIncr_values h a)

theorem count_item_sets_values (ts : List (List String)) :
    ∀ p ∈ count_item_sets ts, 1 ≤ p.2 := by
  rw [count_item_sets]
  suffices h : ∀ d : Dict, (∀ p ∈ d, 1 ≤ p.2) →
      ∀ p ∈ ts.foldl
        (fun d t => (generate_item_sets t t.length).foldl dictIncr d) d,
        1 ≤ p.2 by
    exact h [] (by simp)
  induction ts with
  | nil => intro d hd; exact hd
  | cons t ts ih =>
    intro d hd
    exact ih _ (foldl_dictIncr_values _ hd)

theorem mem_of_dictGet_eq_some {d : Dict} {k : Itemset} {v : Nat}
    (h : dictGet d k = some v) : (k, v) ∈ d := by
  induction d with
  | nil => simp [dictGet] at h
  | cons p rest ih =>
    rw [dictGet] at h
    by_cases hp : p.1 = k
    · rw [if_pos hp] at h
      have hv : p.2 = v := Option.some_injective _ h
      have hkp : (k, v) = p := by
        cases p
        simp only [Prod.mk.injEq]
        exact ⟨hp.symm, hv.symm⟩
      rw [hkp]
      exact List.mem_cons_self p rest
    · rw [if_neg hp] at h
      exact List.mem_cons_of_mem p (ih h)

theorem dictGet_eq_some_of_mem {d : Dict} (hnd : (keys d).Nodup)
    {k : Itemset} {v : Nat} (h : (k, v) ∈ d) : dictGet d k = some v := by
  induction d with
  | nil => simp at h
  | cons p rest ih =>
    rw [keys_cons, List.nodup_cons] at hnd
    rcases List.mem_cons.mp h with rfl | hm
    · simp [dictGet]
    · have hp : ¬(p.1 = k) := by
        intro e
        have hk : k ∈ keys rest := List.mem_map.mpr ⟨(k, v), hm, rfl⟩
        exact hnd.1 (e ▸ hk)
      rw [dictGet, if_neg hp]
      exact ih hnd.2 hm

theorem dictGet_isSome_iff {d : Dict} {k : Itemset} :
    (dictGet d k).isSome = true ↔ k ∈ keys d := by
  induction d with
  | nil => simp [dictGet, keys]
  | cons p rest ih =>
    rw [dictGet, keys_cons]
    by_cases hp : p.1 = k
    · simp [hp]
    · rw [if_neg hp, List.mem_cons]
      constructor
      · intro h; exact Or.inr (ih.mp h)
      · rintro (h | h)
        · exact absurd h.symm hp
        · exact ih.mpr h

/-! ### Properties of `filter_item_sets` -/

theorem filter_item_sets_eq {min_support : ℚ} {total : Nat} (counts : Dict)
    (h : total ≠ 0) :
    filter_item_sets min_support counts total
      = some (counts.filter
          (fun p => decide (min_support ≤ (p.2 : ℚ) / (total : ℚ)))) := by
  induction counts with
  | nil => simp [filter_item_sets]
  | cons p rest ih =>
    rw [filter_item_sets, if_neg h, ih]
    by_cases hp : min_support ≤ (p.2 : ℚ) / (total : ℚ)
    · simp [hp, List.filter_cons]
    · simp [hp, List.filter_cons]

theorem filter_item_sets_some_eq {min_support : ℚ} {counts : Dict}
    {total : Nat} {fis : Dict}
    (h : filter_item_sets min_support counts total = some fis) :
    fis = counts.filter
      (fun p => decide (min_support ≤ (p.2 : ℚ) / (total : ℚ))) := by
  by_cases ht : total = 0
  · subst ht
    cases counts with
    | nil =>
      rw [filter_item_sets] at h
      obtain rfl := Option.some_injective _ h.symm
      simp
    | cons p rest =>
      rw [filter_item_sets, if_pos rfl] at h
      exact absurd h (by simp)
  · rw [filter_item_sets_eq counts ht] at h
    exact (Option.some_injective _ h).symm

theorem filter_item_sets_keys_nodup {min_support : ℚ} {counts : Dict}
    {total : Nat} {fis : Dict} (hnd : (keys counts).Nodup)
    (h : filter_item_sets min_support counts total = some fis) :
    (keys fis).Nodup := by
  rw [filter_item_sets_some_eq h]
  exact hnd.sublist ((List.filter_sublist counts).map Prod.fst)

theorem mem_filter_item_sets {min_support : ℚ} {counts : Dict} {total : Nat}
    {fis : Dict} (h : filter_item_sets min_support counts total = some fis)
    (p : Itemset × Nat) :
    p ∈ fis ↔ p ∈ counts ∧ min_support ≤ (p.2 : ℚ) / (total : ℚ) := by
  rw [filter_item_sets_some_eq h, List.mem_filter]
  simp

/-! ### Characterizing `generate_rules` -/

theorem dcount_eq {d : Dict} {k : Itemset} {v : Nat}
    (h : dictGet d k = some v) : dcount d k = v := by
  simp [dcount, h]

theorem ruleOf_eq_some {fis : Dict} {total : Nat} {D : ℚ} {S x : Itemset}
    {r : Rule} (h : ruleOf fis total D S x = some r) :
    ∃ cS cx, dictGet fis S = some cS ∧ dictGet fis x = some cx ∧
      (total : ℚ) ≠ 0 ∧ D ≠ 0 ∧ (cx : ℚ) ≠ 0 ∧
      r = ⟨x, S.toFinset \ x.toFinset, (cS : ℚ) / (cx : ℚ),
        (cS : ℚ) / (total : ℚ) / D⟩ := by
  rw [ruleOf] at h
  rcases hS : dictGet fis S with _ | cS <;> rw [hS] at h
  · simp at h
  · simp only [Option.pure_def, Option.bind_eq_bind, Option.some_bind,
      checkedDiv] at h
    by_cases ht : (total : ℚ) = 0
    · rw [if_pos ht] at h; simp at h
    · rw [if_neg ht] at h
      simp only [Option.some_bind] at h
      by_cases hD : D = 0
      · rw [if_pos hD] at h; simp at h
      · rw [if_neg hD] at h
        simp only [Option.some_bind] at h
        rcases hx : dictGet fis x with _ | cx <;> rw [hx] at h
        · simp at h
        · simp only [Option.some_bind] at h
          by_cases hcx : (cx : ℚ) = 0
          · rw [if_pos hcx] at h; simp at h
          · rw [if_neg hcx] at h
            simp only [Option.some_bind, Option.pure_def,
              Option.some.injEq] at h
            exact ⟨cS, cx, rfl, rfl, ht, hD, hcx, h.symm⟩

theorem ruleOf_eq_some_of {fis : Dict} {total : Nat} {D : ℚ} {S x : Itemset}
    {cS cx : Nat} (hS : dictGet fis S = some cS)
    (hx : dictGet fis x = some cx) (ht : (total : ℚ) ≠ 0) (hD : D ≠ 0)
    (hcx : (cx : ℚ) ≠ 0) :
    ruleOf fis total D S x = some ⟨x, S.toFinset \ x.toFinset,
      (cS : ℚ) / (cx : ℚ), (cS : ℚ) / (total : ℚ) / D⟩ := by
  rw [ruleOf, hS]
  simp only [Option.pure_def, Option.bind_eq_bind, Option.some_bind,
    checkedDiv, if_neg ht, if_neg hD, hx, if_neg hcx]

/-- The rules the inner loop appends for one slice, as a pure list. -/
def emittedRules (min_conf : ℚ) (fis : Dict) (total : Nat) (D : ℚ)
    (S : Itemset) (xs : List Itemset) : List Rule :=
  xs.flatMap (fun x =>
    if min_conf ≤ (dcount fis S : ℚ) / (dcount fis x : ℚ) then
      [⟨x, S.toFinset \ x.toFinset,
        (dcount fis S : ℚ) / (dcount fis x : ℚ),
        (dcount fis S : ℚ) / (total : ℚ) / D⟩]
    else [])

theorem processAntecedents_some_eq {min_conf : ℚ} {fis : Dict} {total : Nat}
    {D : ℚ} {S : Itemset} :
    ∀ (xs : List Itemset) (acc out : List Rule),
    processAntecedents min_conf fis total D S xs acc = some out →
    out = acc ++ emittedRules min_conf fis total D S xs := by
  intro xs
  induction xs with
  | nil =>
    intro acc out h
    rw [processAntecedents] at h
    obtain rfl := Option.some_injective _ h
    simp [emittedRules]
  | cons x rest ih =>
    intro acc out h
    rw [processAntecedents] at h
    rcases hr : ruleOf fis total D S x with _ | r <;> rw [hr] at h
    · simp at h
    · simp only [Option.pure_def, Option.bind_eq_bind, Option.some_bind] at h
      obtain ⟨cS, cx, hS, hx, ht, hD, hcx, hreq⟩ := ruleOf_eq_some hr
      subst hreq
      have hcS := dcount_eq hS
      have hcxd := dcount_eq hx
      by_cases hc : min_conf ≤ (cS : ℚ) / (cx : ℚ)
      · rw [if_pos hc] at h
        rw [← hcS, ← hcxd] at h hc
        rw [ih _ _ h]
        simp only [emittedRules, List.flatMap_cons, if_pos hc,
          List.append_assoc, List.singleton_append]
      · rw [if_neg hc] at h
        rw [← hcS, ← hcxd] at hc
        rw [ih _ _ h]
        simp only [emittedRules, List.flatMap_cons, if_neg hc,
          List.nil_append]

theorem relSupports_some_eq {fis : Dict} {total : Nat} :
    ∀ {xs : List Itemset} {rels : List ℚ},
    relSupports fis total xs = some rels →
    rels = xs.map (fun x => (dcount fis x : ℚ) / (total : ℚ)) := by
  intro xs
  induction xs with
  | nil =>
    intro rels h
    rw [relSupports] at h
    obtain rfl := Option.some_injective _ h
    simp
  | cons x rest ih =>
    intro rels h
    rw [relSupports] at h
    rcases hx : dictGet fis x with _ | cx <;> rw [hx] at h
    · simp at h
    · simp only [Option.pure_def, Option.bind_eq_bind, Option.some_bind,
        checkedDiv] at h
      by_cases ht : (total : ℚ) = 0
      · rw [if_pos ht] at h; simp at h
      · rw [if_neg ht] at h
        simp only [Option.some_bind] at h
        rcases hrest : relSupports fis total rest with _ | qs <;>
          rw [hrest] at h
        · simp at h
        · simp only [Option.some_bind, Option.some.injEq] at h
          rw [← h, List.map_cons, ih hrest, dcount_eq hx]

theorem sliceStep_some_eq {min_conf : ℚ} {fis : Dict} {total : Nat}
    {S : Itemset} {i : Nat} {acc out : List Rule}
    (h : sliceStep min_conf fis total S i acc = some out) :
    out = acc ++ sliceSpec min_conf fis total S i := by
  rw [sliceStep] at h
  rcases hr : relSupports fis total (combinations S i) with _ | rels <;>
    rw [hr] at h
  · simp at h
  · simp only [Option.pure_def, Option.bind_eq_bind, Option.some_bind] at h
    rw [relSupports_some_eq hr] at h
    have hout := processAntecedents_some_eq _ _ _ h
    rw [hout, sliceSpec, emittedRules]

theorem itemsetLoop_some_eq {min_conf : ℚ} {fis : Dict} {total : Nat}
    {S : Itemset} :
    ∀ (is : List Nat) (acc out : List Rule),
    itemsetLoop min_conf fis total S is acc = some out →
    out = acc ++ is.flatMap (fun i => sliceSpec min_conf fis total S i) := by
  intro is
  induction is with
  | nil =>
    intro acc out h
    rw [itemsetLoop] at h
    obtain rfl := Option.some_injective _ h
    simp
  | cons i rest ih =>
    intro acc out h
    rw [itemsetLoop] at h
    rcases hs : sliceStep min_conf fis total S i acc with _ | acc2 <;>
      rw [hs] at h
    · simp at h
    · simp only [Option.pure_def, Option.bind_eq_bind, Option.some_bind] at h
      rw [ih _ _ h, sliceStep_some_eq hs, List.flatMap_cons,
        List.append_assoc]

theorem rulesLoop_some_eq {min_conf : ℚ} {fis : Dict} {total : Nat} :
    ∀ (Ss : List Itemset) (acc out : List Rule),
    rulesLoop min_conf fis total Ss acc = some out →
    out = acc ++ Ss.flatMap (fun S =>
      (List.range' 1 (S.length - 1)).flatMap
        (fun i => sliceSpec min_conf fis total S i)) := by
  intro Ss
  induction Ss with
  | nil =>
    intro acc out h
    rw [rulesLoop] at h
    obtain rfl := Option.some_injective _ h
    simp
  | cons S rest ih =>
    intro acc out h
    rw [rulesLoop] at h
    rcases hs : itemsetLoop min_conf fis total S
        (List.range' 1 (S.length - 1)) acc with _ | acc2 <;> rw [hs] at h
    · simp at h
    · simp only [Option.pure_def, Option.bind_eq_bind, Option.some_bind] at h
      rw [ih _ _ h, itemsetLoop_some_eq _ _ _ hs, List.flatMap_cons,
        List.append_assoc]

theorem generate_rules_some_eq {min_conf : ℚ} {fis : Dict} {total : Nat}
    {rs : List Rule} (h : generate_rules min_conf fis total = some rs) :
    rs = rulesSpec min_conf fis total := by
  rw [generate_rules] at h
  have := rulesLoop_some_eq _ _ _ h
  rw [this, rulesSpec, List.nil_append]

/-! ### Success conditions for `generate_rules` -/

theorem relSupports_isSome {fis : Dict} {total : Nat}
    (ht : (total : ℚ) ≠ 0) :
    ∀ {xs : List Itemset}, (∀ x ∈ xs, (dictGet fis x).isSome = true) →
    (relSupports fis total xs).isSome = true := by
  intro xs
  induction xs with
  | nil => intro _; simp [relSupports]
  | cons x rest ih =>
    intro hx
    obtain ⟨cx, hcx⟩ :=
      Option.isSome_iff_exists.mp (hx x (List.mem_cons_self x rest))
    obtain ⟨qs, hqs⟩ := Option.isSome_iff_exists.mp
      (ih (fun u hu => hx u (List.mem_cons_of_mem x hu)))
    rw [relSupports, hcx]
    simp [checkedDiv, ht, hqs]

theorem processAntecedents_isSome {min_conf : ℚ} {fis : Dict} {total : Nat}
    {D : ℚ} {S : Itemset} {cS : Nat} (hS : dictGet fis S = some cS)
    (ht : (total : ℚ) ≠ 0) (hD : D ≠ 0) :
    ∀ (xs : List Itemset) (acc : List Rule),
    (∀ x ∈ xs, ∃ cx, dictGet fis x = some cx ∧ (cx : ℚ) ≠ 0) →
    (processAntecedents min_conf fis total D S xs acc).isSome = true := by
  intro xs
  induction xs with
  | nil => intro acc _; simp [processAntecedents]
  | cons x rest ih =>
    intro acc hx
    obtain ⟨cx, hcx, hcx0⟩ := hx x (List.mem_cons_self x rest)
    rw [processAntecedents, ruleOf_eq_some_of hS hcx ht hD hcx0]
    simp only [Option.pure_def, Option.bind_eq_bind, Option.some_bind]
    exact ih _ (fun u hu => hx u (List.mem_cons_of_mem x hu))

theorem sliceStep_isSome {min_conf : ℚ} {fis : Dict} {total : Nat}
    {S : Itemset} {i : Nat} {cS : Nat} (acc : List Rule)
    (hS : dictGet fis S = some cS) (ht : (total : ℚ) ≠ 0)
    (hx : ∀ x ∈ combinations S i,
      ∃ cx, dictGet fis x = some cx ∧ (cx : ℚ) ≠ 0) :
    (sliceStep min_conf fis total S i acc).isSome = true := by
  have h1 : (relSupports fis total (combinations S i)).isSome = true := by
    refine relSupports_isSome ht (fun x hxm => ?_)
    obtain ⟨cx, hcx, _⟩ := hx x hxm
    simp [hcx]
  obtain ⟨rels, hrels⟩ := Option.isSome_iff_exists.mp h1
  have hD : rels.prod ≠ 0 := by
    rw [relSupports_some_eq hrels]
    apply List.prod_ne_zero
    intro h0
    obtain ⟨x, hxm, hx0⟩ := List.mem_map.mp h0
    obtain ⟨cx, hcx, hcx0⟩ := hx x hxm
    rw [dcount_eq hcx] at hx0
    rcases div_eq_zero_iff.mp hx0 with h | h
    · exact hcx0 h
    · exact ht h
  rw [sliceStep, hrels]
  simp only [Option.pure_def, Option.bind_eq_bind, Option.some_bind]
  exact processAntecedents_isSome hS ht hD _ _ hx

theorem itemsetLoop_isSome {min_conf : ℚ} {fis : Dict} {total : Nat}
    {S : Itemset} {cS : Nat} (hS : dictGet fis S = some cS)
    (ht : (total : ℚ) ≠ 0) :
    ∀ (is : List Nat) (acc : List Rule),
    (∀ i ∈ is, ∀ x ∈ combinations S i,
      ∃ cx, dictGet fis x = some cx ∧ (cx : ℚ) ≠ 0) →
    (itemsetLoop min_conf fis total S is acc).isSome = true := by
  intro is
  induction is with
  | nil => intro acc _; simp [itemsetLoop]
  | cons i rest ih =>
    intro acc hcond
    obtain ⟨acc2, hacc2⟩ := Option.isSome_iff_exists.mp
      (sliceStep_isSome acc hS ht (hcond i (List.mem_cons_self i rest)))
    rw [itemsetLoop, hacc2]
    simp only [Option.pure_def, Option.bind_eq_bind, Option.some_bind]
    exact ih _ (fun j hj => hcond j (List.mem_cons_of_mem i hj))

theorem rulesLoop_isSome {min_conf : ℚ} {fis : Dict} {total : Nat}
    (ht : (total : ℚ) ≠ 0) :
    ∀ (Ss : List Itemset) (acc : List Rule),
    (∀ S ∈ Ss, (dictGet fis S).isSome = true) →
    (∀ S ∈ Ss, ∀ i ∈ List.range' 1 (S.length - 1), ∀ x ∈ combinations S i,
      ∃ cx, dictGet fis x = some cx ∧ (cx : ℚ) ≠ 0) →
    (rulesLoop min_conf fis total Ss acc).isSome = true := by
  intro Ss
  induction Ss with
  | nil => intro acc _ _; simp [rulesLoop]
  | cons S rest ih =>
    intro acc hkeys hcond
    obtain ⟨cS, hcS⟩ := Option.isSome_iff_exists.mp
      (hkeys S (List.mem_cons_self S rest))
    obtain ⟨acc2, hacc2⟩ := Option.isSome_iff_exists.mp
      (itemsetLoop_isSome hcS ht _ acc
        (hcond S (List.mem_cons_self S rest)))
    rw [rulesLoop, hacc2]
    simp only [Option.pure_def, Option.bind_eq_bind, Option.some_bind]
    exact ih _ (fun T hT => hkeys T (List.mem_cons_of_mem S hT))
      (fun T hT => hcond T (List.mem_cons_of_mem S hT))

theorem countP_le_countP {α : Type} (l : List α) {p q : α → Bool}
    (h : ∀ a ∈ l, p a = true → q a = true) : l.countP p ≤ l.countP q := by
  induction l with
  | nil => simp
  | cons a l ih =>
    rw [List.countP_cons, List.countP_cons]
    have h1 := ih (fun b hb => h b (List.mem_cons_of_mem a hb))
    by_cases hp : p a = true
    · rw [if_pos hp, if_pos (h a (List.mem_cons_self a l) hp)]
      omega
    · rw [if_neg hp]
      by_cases hq : q a = true
      · rw [if_pos hq]; omega
      · rw [if_neg hq]; omega

/-- Under duplicate-free transactions, every non-empty sub-itemset `x` of a
retained frequent itemset `S` is itself a retained key, with a count at
least as large as `S`'s (and hence at least 1). -/
theorem fis_antecedent_closure {ms : ℚ} {ts : List (List String)}
    {fis : Dict} (hnodup : ∀ t ∈ ts, t.Nodup)
    (hf : filter_item_sets ms (count_item_sets ts) ts.length = some fis)
    {S : Itemset} {cS : Nat} (hS : dictGet fis S = some cS)
    {x : Itemset} (hxne : x ≠ []) (hxs : x.Sublist S) :
    ∃ cx, dictGet fis x = some cx ∧ cS ≤ cx ∧ 1 ≤ cS := by
  have hcnd := count_item_sets_keys_nodup ts
  have hfnd := filter_item_sets_keys_nodup hcnd hf
  have hmemS : (S, cS) ∈ fis := mem_of_dictGet_eq_some hS
  obtain ⟨hScounts, hSsup⟩ := (mem_filter_item_sets hf _).mp hmemS
  have hcS1 : 1 ≤ cS := count_item_sets_values ts _ hScounts
  have hdS : dcount (count_item_sets ts) S = cS :=
    dcount_eq (dictGet_eq_some_of_mem hcnd hScounts)
  have hSne : S ≠ [] := by
    rintro rfl
    exact hxne (List.sublist_nil.mp hxs)
  have hmono : dcount (count_item_sets ts) S
      ≤ dcount (count_item_sets ts) x := by
    rw [dcount_count_item_sets_nodup S hnodup,
      dcount_count_item_sets_nodup x hnodup]
    refine countP_le_countP ts (fun t _ hpt => ?_)
    rw [decide_eq_true_eq] at hpt ⊢
    exact ⟨hxne, hxs.trans hpt.2⟩
  have hcx1 : 1 ≤ dcount (count_item_sets ts) x := by omega
  obtain ⟨cx, hgx⟩ : ∃ v, dictGet (count_item_sets ts) x = some v := by
    rcases hg : dictGet (count_item_sets ts) x with _ | v
    · rw [dcount, hg] at hcx1
      simp at hcx1
    · exact ⟨v, rfl⟩
  have hdx : dcount (count_item_sets ts) x = cx := dcount_eq hgx
  have hmemx : (x, cx) ∈ count_item_sets ts := mem_of_dictGet_eq_some hgx
  have htot : 0 < ts.length := by
    cases ts with
    | nil => simp [count_item_sets] at hScounts
    | cons t rest => simp
  have htotQ : (0 : ℚ) < (ts.length : ℚ) := by exact_mod_cast htot
  have hsup : ms ≤ (cx : ℚ) / (ts.length : ℚ) := by
    refine le_trans hSsup ?_
    have hle : (cS : ℚ) ≤ (cx : ℚ) := by exact_mod_cast (by omega : cS ≤ cx)
    exact div_le_div_of_nonneg_right hle (le_of_lt htotQ)
  have hmemxf : (x, cx) ∈ fis := (mem_filter_item_sets hf _).mpr ⟨hmemx, hsup⟩
  exact ⟨cx, dictGet_eq_some_of_mem hfnd hmemxf, by omega, hcS1⟩

theorem relSupports_some_lookups {fis : Dict} {total : Nat} :
    ∀ {xs : List Itemset} {rels : List ℚ},
    relSupports fis total xs = some rels →
    ∀ x ∈ xs, (dictGet fis x).isSome = true := by
  intro xs
  induction xs with
  | nil => intro rels _ x hx; simp at hx
  | cons x rest ih =>
    intro rels h u hu
    rw [relSupports] at h
    rcases hx : dictGet fis x with _ | cx <;> rw [hx] at h
    · simp at h
    · simp only [Option.pure_def, Option.bind_eq_bind, Option.some_bind] at h
      rcases hq : checkedDiv (cx : ℚ) (total : ℚ) with _ | q <;> rw [hq] at h
      · simp at h
      · simp only [Option.some_bind] at h
        rcases hrest : relSupports fis total rest with _ | qs <;>
          rw [hrest] at h
        · simp at h
        · rcases List.mem_cons.mp hu with rfl | hm
          · simp [hx]
          · exact ih hrest u hm

theorem sliceStep_some_lookups {min_conf : ℚ} {fis : Dict} {total : Nat}
    {S : Itemset} {i : Nat} {acc out : List Rule}
    (h : sliceStep min_conf fis total S i acc = some out) :
    ∀ x ∈ combinations S i, (dictGet fis x).isSome = true := by
  rw [sliceStep] at h
  rcases hr : relSupports fis total (combinations S i) with _ | rels <;>
    rw [hr] at h
  · simp at h
  · exact relSupports_some_lookups hr

theorem itemsetLoop_some_lookups {min_conf : ℚ} {fis : Dict} {total : Nat}
    {S : Itemset} :
    ∀ {is : List Nat} {acc out : List Rule},
    itemsetLoop min_conf fis total S is acc = some out →
    ∀ i ∈ is, ∀ x ∈ combinations S i, (dictGet fis x).isSome = true := by
  intro is
  induction is with
  | nil => intro acc out _ i hi; simp at hi
  | cons i rest ih =>
    intro acc out h j hj
    rw [itemsetLoop] at h
    rcases hs : sliceStep min_conf fis total S i acc with _ | acc2 <;>
      rw [hs] at h
    · simp at h
    · simp only [Option.pure_def, Option.bind_eq_bind, Option.some_bind] at h
      rcases List.mem_cons.mp hj with rfl | hm
      · exact sliceStep_some_lookups hs
      · exact ih h j hm

theorem rulesLoop_some_lookups {min_conf : ℚ} {fis : Dict} {total : Nat} :
    ∀ {Ss : List Itemset} {acc out : List Rule},
    rulesLoop min_conf fis total Ss acc = some out →
    ∀ S ∈ Ss, ∀ i ∈ List.range' 1 (S.length - 1), ∀ x ∈ combinations S i,
      (dictGet fis x).isSome = true := by
  intro Ss
  induction Ss with
  | nil => intro acc out _ S hS; simp at hS
  | cons S rest ih =>
    intro acc out h T hT
    rw [rulesLoop] at h
    rcases hs : itemsetLoop min_conf fis total S
        (List.range' 1 (S.length - 1)) acc with _ | acc2 <;> rw [hs] at h
    · simp at h
    · simp only [Option.pure_def, Option.bind_eq_bind, Option.some_bind] at h
      rcases List.mem_cons.mp hT with rfl | hm
      · exact itemsetLoop_some_lookups hs
      · exact ih h T hm

theorem generate_rules_some_lookups {min_conf : ℚ} {fis : Dict}
    {total : Nat} {rs : List Rule}
    (h : generate_rules min_conf fis total = some rs) :
    ∀ S ∈ keys fis, ∀ i ∈ List.range' 1 (S.length - 1),
      ∀ x ∈ combinations S i, (dictGet fis x).isSome = true := by
  rw [generate_rules] at h
  exact rulesLoop_some_lookups h

theorem mem_rulesSpec {min_conf : ℚ} {fis : Dict} {total : Nat} {r : Rule}
    (h : r ∈ rulesSpec min_conf fis total) :
    ∃ S, S ∈ keys fis ∧ ∃ i, i ∈ List.range' 1 (S.length - 1) ∧
      ∃ x, x ∈ combinations S i ∧
      min_conf ≤ (dcount fis S : ℚ) / (dcount fis x : ℚ) ∧
      r = ⟨x, S.toFinset \ x.toFinset,
        (dcount fis S : ℚ) / (dcount fis x : ℚ),
        ((dcount fis S : ℚ) / (total : ℚ)) /
          ((combinations S i).map
            (fun c => (dcount fis c : ℚ) / (total : ℚ))).prod⟩ := by
  simp only [rulesSpec, List.mem_flatMap] at h
  obtain ⟨S, hS, h⟩ := h
  obtain ⟨i, hi, h⟩ := h
  simp only [sliceSpec, List.mem_flatMap] at h
  obtain ⟨x, hx, h⟩ := h
  refine ⟨S, hS, i, hi, x, hx, ?_⟩
  by_cases hc : min_conf ≤ (dcount fis S : ℚ) / (dcount fis x : ℚ)
  · rw [if_pos hc] at h
    exact ⟨hc, List.mem_singleton.mp h⟩
  · rw [if_neg hc] at h
    simp at h

/-! ### Claim C1: shared lift denominator per slice -/

/-- C1: every rule the slice step of `generate_rules` emits from the
size-`i` candidates of an itemset `S` carries
`lift = (count(S)/total) / D_i`, where `D_i` is the product over all
size-`i` candidates `c` of `count(c)/total` — a denominator shared by the
whole slice, not derived from the single antecedent. -/
theorem C1_lift_shared_denominator {min_conf : ℚ} {fis : Dict} {total : Nat}
    {S : Itemset} {i : Nat} {acc out : List Rule}
    (h : sliceStep min_conf fis total S i acc = some out) :
    ∃ emitted, out = acc ++ emitted ∧
      ∀ r ∈ emitted,
        r.lift = ((dcount fis S : ℚ) / (total : ℚ)) /
          ((combinations S i).map
            (fun c => (dcount fis c : ℚ) / (total : ℚ))).prod := by
  refine ⟨sliceSpec min_conf fis total S i, sliceStep_some_eq h, ?_⟩
  intro r hr
  simp only [sliceSpec, List.mem_flatMap] at hr
  obtain ⟨x, _, hr⟩ := hr
  by_cases hc : min_conf ≤ (dcount fis S : ℚ) / (dcount fis x : ℚ)
  · rw [if_pos hc] at hr
    rw [List.mem_singleton] at hr
    subst hr
    rfl
  · rw [if_neg hc] at hr
    simp at hr

/-- C1 witness: a concrete slice where both candidate rules carry the shared
denominator lift. -/
theorem C1_lift_shared_denominator_witness :
    ∃ emitted,
      [(⟨["a"], {"b"}, 1, 1⟩ : Rule), ⟨["b"], {"a"}, 1, 1⟩]
        = [] ++ emitted ∧
      ∀ r ∈ emitted,
        r.lift = ((dcount [(["a", "b"], 2), (["a"], 2), (["b"], 2)]
            ["a", "b"] : ℚ) / (2 : ℚ)) /
          ((combinations ["a", "b"] 1).map
            (fun c => (dcount [(["a", "b"], 2), (["a"], 2), (["b"], 2)]
              c : ℚ) / (2 : ℚ))).prod :=
  C1_lift_shared_denominator (show sliceStep (3/4)
      [(["a", "b"], 2), (["a"], 2), (["b"], 2)] 2 ["a", "b"] 1 []
      = some [⟨["a"], {"b"}, 1, 1⟩, ⟨["b"], {"a"}, 1, 1⟩] by
    norm_num [sliceStep, relSupports, processAntecedents, ruleOf, checkedDiv,
      dictGet, combinations]
    constructor
    · rfl
    · rfl)

/-! ### Claim C2: counting semantics -/

/-- C2 (amended): over duplicate-free transactions, the recorded count of
any itemset is at most the number of transactions, is positive exactly when
some transaction's enumeration emits the itemset, and equals the number of
transactions containing the itemset as a subset — each transaction
contributes at most one increment. -/
theorem C2_count_bounds {ts : List (List String)} (k : Itemset)
    (hnodup : ∀ t ∈ ts, t.Nodup) (hk : k ≠ []) :
    dcount (count_item_sets ts) k ≤ ts.length
    ∧ (0 < dcount (count_item_sets ts) k ↔
        ∃ t ∈ ts, k ∈ generate_item_sets t t.length)
    ∧ dcount (count_item_sets ts) k
        = ts.countP (fun t => decide (k.Sublist t)) := by
  have heq : dcount (count_item_sets ts) k
      = ts.countP (fun t => decide (k ≠ [] ∧ k.Sublist t)) :=
    dcount_count_item_sets_nodup k hnodup
  have heq2 : dcount (count_item_sets ts) k
      = ts.countP (fun t => decide (k.Sublist t)) := by
    rw [heq]
    congr 1
    funext t
    simp [hk]
  refine ⟨?_, ?_, heq2⟩
  · rw [heq2]
    exact List.countP_le_length _
  · rw [heq, List.countP_pos_iff]
    constructor
    · rintro ⟨t, ht, hp⟩
      rw [decide_eq_true_eq] at hp
      exact ⟨t, ht, mem_generate_item_sets_self.mpr hp⟩
    · rintro ⟨t, ht, hm⟩
      refine ⟨t, ht, ?_⟩
      rw [decide_eq_true_eq]
      exact mem_generate_item_sets_self.mp hm

/-- C2 counterexample: with the single transaction `["a","a"]` the itemset
`["a"]` is counted twice, exceeding the number of transactions. -/
theorem C2_counterexample :
    ¬ (dcount (count_item_sets [["a", "a"]]) ["a"]
        ≤ ([["a", "a"]] : List (List String)).length) := by
  decide

/-- C2 witness at a concrete duplicate-free transaction list. -/
theorem C2_count_bounds_witness :
    dcount (count_item_sets [["a", "b"], ["a"]]) ["a"]
        ≤ ([["a", "b"], ["a"]] : List (List String)).length
    ∧ (0 < dcount (count_item_sets [["a", "b"], ["a"]]) ["a"] ↔
        ∃ t ∈ [["a", "b"], ["a"]], ["a"] ∈ generate_item_sets t t.length)
    ∧ dcount (count_item_sets [["a", "b"], ["a"]]) ["a"]
        = ([["a", "b"], ["a"]] : List (List String)).countP
            (fun t => decide ((["a"] : Itemset).Sublist t)) :=
  C2_count_bounds ["a"] (by decide) (by decide)

/-! ### Claim C3: itemset enumeration -/

/-- C3 (amended): for each transaction of length `n` the enumerator returns
exactly `2^n - 1` itemsets, all non-empty; when the transaction's items are
pairwise distinct they are also pairwise distinct as canonical sequences,
and for a sorted duplicate-free transaction they appear in size-ascending
order, lexicographically within each size. -/
theorem C3_enumerator (t : List String) :
    (generate_item_sets t t.length).length = 2 ^ t.length - 1
    ∧ (∀ s ∈ generate_item_sets t t.length, s ≠ [])
    ∧ (t.Nodup → (generate_item_sets t t.length).Nodup)
    ∧ (t.Sorted (· < ·) →
        (generate_item_sets t t.length).Pairwise
          (fun u v => u.length < v.length
            ∨ (u.length = v.length ∧ List.Lex (· < ·) u v))) :=
  ⟨generate_item_sets_length t,
    fun _ hs => (mem_generate_item_sets_self.mp hs).1,
    fun h => generate_item_sets_nodup h,
    fun h => generate_item_sets_pairwise h t.length⟩

/-- C3 counterexample: for the transaction `["a","a"]` the enumerator output
`[["a"], ["a"], ["a","a"]]` is not pairwise distinct. -/
theorem C3_counterexample :
    ¬ (generate_item_sets ["a", "a"]
        (["a", "a"] : List String).length).Nodup := by
  decide

/-- C3 witness at the sorted transaction `["a","b","c"]`. -/
theorem C3_enumerator_witness :
    (["a", "b", "c"] : List String).Sorted (· < ·)
    ∧ (generate_item_sets ["a", "b", "c"]
        (["a", "b", "c"] : List String).length).Pairwise
        (fun u v => u.length < v.length
          ∨ (u.length = v.length ∧ List.Lex (· < ·) u v)) := by
  have hs : (["a", "b", "c"] : List String).Sorted (· < ·) := by
    norm_num [List.Sorted]
    decide
  exact ⟨hs, (C3_enumerator ["a", "b", "c"]).2.2.2 hs⟩

/-! ### Claim C4: confidence formula and inclusive threshold -/

/-- C4: in each slice the emitted rules are exactly the candidates whose
confidence `count(S)/count(x)` satisfies `min_conf ≤ confidence`
(inclusive), carrying that confidence; a below-threshold candidate
contributes no rule. -/
theorem C4_confidence_threshold {min_conf : ℚ} {fis : Dict} {total : Nat}
    {S : Itemset} {i : Nat} {acc out : List Rule}
    (h : sliceStep min_conf fis total S i acc = some out) :
    out = acc ++ (combinations S i).flatMap (fun x =>
      if min_conf ≤ (dcount fis S : ℚ) / (dcount fis x : ℚ) then
        [⟨x, S.toFinset \ x.toFinset,
          (dcount fis S : ℚ) / (dcount fis x : ℚ),
          ((dcount fis S : ℚ) / (total : ℚ)) /
            ((combinations S i).map
              (fun c => (dcount fis c : ℚ) / (total : ℚ))).prod⟩]
      else []) := by
  rw [sliceStep_some_eq h]
  rfl

/-- C4 witness: one candidate meets the threshold and is emitted, the other
falls below it and is dropped. -/
theorem C4_confidence_threshold_witness :
    [(⟨["a"], {"b"}, 1, 1⟩ : Rule)]
      = [] ++ (combinations ["a", "b"] 1).flatMap (fun x =>
        if (3/4 : ℚ) ≤ (dcount [(["a", "b"], 2), (["a"], 2), (["b"], 4)]
            ["a", "b"] : ℚ) /
            (dcount [(["a", "b"], 2), (["a"], 2), (["b"], 4)] x : ℚ) then
          [⟨x, (["a", "b"] : Itemset).toFinset \ x.toFinset,
            (dcount [(["a", "b"], 2), (["a"], 2), (["b"], 4)]
              ["a", "b"] : ℚ) /
              (dcount [(["a", "b"], 2), (["a"], 2), (["b"], 4)] x : ℚ),
            ((dcount [(["a", "b"], 2), (["a"], 2), (["b"], 4)]
              ["a", "b"] : ℚ) / (4 : ℚ)) /
              ((combinations ["a", "b"] 1).map
                (fun c => (dcount [(["a", "b"], 2), (["a"], 2), (["b"], 4)]
                  c : ℚ) / (4 : ℚ))).prod⟩]
        else []) :=
  C4_confidence_threshold (show sliceStep (3/4)
      [(["a", "b"], 2), (["a"], 2), (["b"], 4)] 4 ["a", "b"] 1 []
      = some [⟨["a"], {"b"}, 1, 1⟩] by
    norm_num [sliceStep, relSupports, processAntecedents, ruleOf, checkedDiv,
      dictGet, combinations, (by decide : ("a" : String) ≠ "b"),
      (by decide : ¬(["a"] : Itemset) = ["a", "b"]),
      (by decide : ¬(["b"] : Itemset) = ["a", "b"])]
    rfl)

/-! ### Claim C5: rule invariants -/

/-- C5 (amended): every rule the pipeline emits has antecedent `x` disjoint
from consequent `y`, union `x ∪ y` equal to a retained frequent itemset,
and positive confidence; when every transaction is duplicate-free the
confidence is moreover at most 1 (with repeated labels it can exceed 1). -/
theorem C5_rule_invariants {min_support min_conf : ℚ}
    {ts : List (List String)} {fis : Dict} {rs : List Rule}
    (hf : filter_item_sets min_support (count_item_sets ts) ts.length
      = some fis)
    (hr : generate_rules min_conf fis ts.length = some rs) :
    ∀ r ∈ rs,
      Disjoint r.x.toFinset r.y
      ∧ (∃ S ∈ keys fis, r.x.toFinset ∪ r.y = S.toFinset)
      ∧ 0 < r.conf
      ∧ ((∀ t ∈ ts, t.Nodup) → r.conf ≤ 1) := by
  intro r hrm
  rw [generate_rules_some_eq hr] at hrm
  obtain ⟨S, hSk, i, hi, x, hx, hconf, rfl⟩ := mem_rulesSpec hrm
  obtain ⟨hxs, hxlen⟩ := mem_combinations.mp hx
  have hi1 : 1 ≤ i := (List.mem_range'_1.mp hi).1
  have hxne : x ≠ [] := by
    intro e
    rw [e] at hxlen
    simp at hxlen
    omega
  obtain ⟨cS, hcS⟩ := Option.isSome_iff_exists.mp (dictGet_isSome_iff.mpr hSk)
  have hdS : dcount fis S = cS := dcount_eq hcS
  have hmemS : (S, cS) ∈ fis := mem_of_dictGet_eq_some hcS
  have hmemSc : (S, cS) ∈ count_item_sets ts :=
    ((mem_filter_item_sets hf _).mp hmemS).1
  have hcS1 : 1 ≤ cS := count_item_sets_values ts _ hmemSc
  have hxsome := generate_rules_some_lookups hr S hSk i hi x hx
  obtain ⟨cx, hcx⟩ := Option.isSome_iff_exists.mp hxsome
  have hdx : dcount fis x = cx := dcount_eq hcx
  have hmemx : (x, cx) ∈ fis := mem_of_dictGet_eq_some hcx
  have hmemxc : (x, cx) ∈ count_item_sets ts :=
    ((mem_filter_item_sets hf _).mp hmemx).1
  have hcx1 : 1 ≤ cx := count_item_sets_values ts _ hmemxc
  refine ⟨Finset.disjoint_sdiff, ⟨S, hSk, ?_⟩, ?_, ?_⟩
  · have hsub : x.toFinset ⊆ S.toFinset := by
      intro a ha
      rw [List.mem_toFinset] at ha ⊢
      exact hxs.subset ha
    exact Finset.union_sdiff_of_subset hsub
  · show (0 : ℚ) < (dcount fis S : ℚ) / (dcount fis x : ℚ)
    rw [hdS, hdx]
    refine div_pos ?_ ?_
    · exact_mod_cast hcS1
    · exact_mod_cast hcx1
  · intro hnodup
    obtain ⟨cx2, hgx2, hge, _⟩ :=
      fis_antecedent_closure hnodup hf hcS hxne hxs
    rw [hcx] at hgx2
    obtain rfl := Option.some_injective _ hgx2
    show (dcount fis S : ℚ) / (dcount fis x : ℚ) ≤ 1
    rw [hdS, hdx, div_le_one (by exact_mod_cast (by omega : 0 < cx))]
    exact_mod_cast hge

/-- C5 counterexample: with a repeated label in a transaction the pipeline
emits rules whose confidence exceeds 1. -/
theorem C5_counterexample :
    ((analyze_associations (1/2) (3/4) [["a", "a", "a", "a"]]).getD []).any
      (fun r => decide (1 < r.conf)) = true := by
  norm_num [analyze_associations, count_item_sets, generate_item_sets,
    List.range', combinations, dictIncr, filter_item_sets, generate_rules,
    keys, rulesLoop, itemsetLoop, sliceStep, relSupports, processAntecedents,
    ruleOf, checkedDiv, dictGet, dcount, List.cons_ne_nil, ne_eq,
    List.cons.injEq]

/-- C5 witness at a concrete duplicate-free run, fully instantiated at the
single emitted rule. -/
theorem C5_rule_invariants_witness :
    Disjoint (⟨["b"], {"a"}, 1, 1⟩ : Rule).x.toFinset
        (⟨["b"], {"a"}, 1, 1⟩ : Rule).y
    ∧ (∃ S ∈ keys [(["a"], 2), (["b"], 1), (["a", "b"], 1)],
        (⟨["b"], {"a"}, 1, 1⟩ : Rule).x.toFinset
          ∪ (⟨["b"], {"a"}, 1, 1⟩ : Rule).y = S.toFinset)
    ∧ 0 < (⟨["b"], {"a"}, 1, 1⟩ : Rule).conf
    ∧ (⟨["b"], {"a"}, 1, 1⟩ : Rule).conf ≤ 1 := by
  have h := C5_rule_invariants
    (show filter_item_sets (1/2) (count_item_sets [["a", "b"], ["a"]])
        ([["a", "b"], ["a"]] : List (List String)).length
        = some [(["a"], 2), (["b"], 1), (["a", "b"], 1)] by
      norm_num [count_item_sets, generate_item_sets, List.range',
        combinations, dictIncr, filter_item_sets])
    (show generate_rules (3/4) [(["a"], 2), (["b"], 1), (["a", "b"], 1)]
        ([["a", "b"], ["a"]] : List (List String)).length
        = some [⟨["b"], {"a"}, 1, 1⟩] by
      norm_num [generate_rules, keys, rulesLoop, itemsetLoop, sliceStep,
        relSupports, processAntecedents, ruleOf, checkedDiv, dictGet,
        List.range', combinations, List.cons_ne_nil, ne_eq, List.cons.injEq,
        (by decide : ("a" : String) ≠ "b"),
        (by decide : ¬(["a"] : Itemset) = ["a", "b"]),
        (by decide : ¬(["b"] : Itemset) = ["a", "b"]),
        (by decide : ¬(["a"] : Itemset) = ["b"])])
    (⟨["b"], {"a"}, 1, 1⟩ : Rule) (List.mem_singleton.mpr rfl)
  exact ⟨h.1, h.2.1, h.2.2.1, h.2.2.2 (by decide)⟩

/-! ### Claim C6: absence of runtime failures -/

/-- C6 (amended): for duplicate-free (in particular non-empty-transaction,
well-formed) input, the pipeline never fails — every antecedent lookup hits
a key of the filtered dict and no division by a zero count occurs, so
`analyze_associations` returns a result. With repeated labels inside a
transaction a `KeyError` is possible (see the counterexample). -/
theorem C6_no_failures (min_support min_conf : ℚ)
    {ts : List (List String)} (hnodup : ∀ t ∈ ts, t.Nodup) :
    (analyze_associations min_support min_conf ts).isSome = true := by
  by_cases hts : ts = []
  · subst hts
    rfl
  · have ht0 : ts.length ≠ 0 := fun e => hts (List.length_eq_zero.mp e)
    have htQ : (ts.length : ℚ) ≠ 0 := Nat.cast_ne_zero.mpr ht0
    have hf : filter_item_sets min_support (count_item_sets ts) ts.length
        = some ((count_item_sets ts).filter
          (fun p => decide (min_support ≤ (p.2 : ℚ) / (ts.length : ℚ)))) :=
      filter_item_sets_eq _ ht0
    rw [analyze_associations]
    simp only [Option.pure_def, Option.bind_eq_bind, hf, Option.some_bind]
    rw [generate_rules]
    apply rulesLoop_isSome htQ
    · intro S hS
      exact dictGet_isSome_iff.mpr hS
    · intro S hS i hi x hx
      obtain ⟨cS, hcS⟩ :=
        Option.isSome_iff_exists.mp (dictGet_isSome_iff.mpr hS)
      obtain ⟨hxs, hxlen⟩ := mem_combinations.mp hx
      have hi1 : 1 ≤ i := (List.mem_range'_1.mp hi).1
      have hxne : x ≠ [] := by
        intro e
        rw [e] at hxlen
        simp at hxlen
        omega
      obtain ⟨cx, hgx, hge, h1⟩ :=
        fis_antecedent_closure hnodup hf hcS hxne hxs
      exact ⟨cx, hgx, Nat.cast_ne_zero.mpr (by omega)⟩

/-- C6 counterexample: all transactions are non-empty, yet the repeated
label in the first one makes the retained itemset `["a","a"]` have a
sub-combination `["a"]` that fails the support filter, so `generate_rules`
hits a missing key (Python: `KeyError`) and the run fails. -/
theorem C6_counterexample :
    analyze_associations 1 (3/4)
      [["a", "a", "a", "a"], ["b"], ["b"], ["b"], ["b"]] = none := by
  norm_num [analyze_associations, count_item_sets, generate_item_sets,
    List.range', combinations, dictIncr, filter_item_sets, generate_rules,
    keys, rulesLoop, itemsetLoop, sliceStep, relSupports, processAntecedents,
    ruleOf, checkedDiv, dictGet, dcount, List.cons_ne_nil, ne_eq,
    List.cons.injEq]

/-- C6 witness at a concrete duplicate-free run. -/
theorem C6_no_failures_witness :
    (analyze_associations (1/2) (3/4) [["a", "b"], ["a"]]).isSome = true :=
  C6_no_failures (1/2) (3/4) (by decide)

/-! ### Claim C7: support filter semantics -/

/-- C7: with a positive transaction count, `filter_item_sets` retains
exactly the entries with `count / total ≥ min_support` — the comparison is
inclusive, and entries pass through unaltered. -/
theorem C7_filter_exact (min_support : ℚ) (counts : Dict) (total : Nat)
    (h : total ≠ 0) :
    filter_item_sets min_support counts total
      = some (counts.filter
          (fun p => decide (min_support ≤ (p.2 : ℚ) / (total : ℚ)))) :=
  filter_item_sets_eq counts h

/-- C7 witness, including an exact tie (`1/2 = min_support`) that passes. -/
theorem C7_filter_exact_witness :
    filter_item_sets (1/2) [(["a"], 1), (["b"], 2)] 2
      = some (([(["a"], 1), (["b"], 2)] : Dict).filter
          (fun p => decide ((1/2 : ℚ) ≤ (p.2 : ℚ) / (2 : ℚ)))) :=
  C7_filter_exact (1/2) [(["a"], 1), (["b"], 2)] 2 (by decide)

/-! ### Claim C8: monotonicity of the support filter -/

/-- C8: for a fixed count dict and total, the dict retained under a larger
`min_support` is a subset of the dict retained under a smaller one. -/
theorem C8_filter_monotone {ms1 ms2 : ℚ} {counts : Dict} {total : Nat}
    {fis1 fis2 : Dict} (hle : ms1 ≤ ms2)
    (h1 : filter_item_sets ms1 counts total = some fis1)
    (h2 : filter_item_sets ms2 counts total = some fis2) :
    fis2 ⊆ fis1 := by
  rw [filter_item_sets_some_eq h1, filter_item_sets_some_eq h2]
  intro p hp
  rw [List.mem_filter] at hp ⊢
  obtain ⟨hm, hcond⟩ := hp
  rw [decide_eq_true_eq] at hcond
  refine ⟨hm, ?_⟩
  rw [decide_eq_true_eq]
  exact le_trans hle hcond

/-- C8 witness: raising the threshold from `1/4` to `3/4` shrinks the
retained dict. -/
theorem C8_filter_monotone_witness :
    ([(["b"], 2)] : Dict) ⊆ [(["a"], 1), (["b"], 2)] :=
  C8_filter_monotone (by norm_num)
    (show filter_item_sets (1/4) [(["a"], 1), (["b"], 2)] 2
        = some [(["a"], 1), (["b"], 2)] by
      norm_num [filter_item_sets])
    (show filter_item_sets (3/4) [(["a"], 1), (["b"], 2)] 2
        = some [(["b"], 2)] by
      norm_num [filter_item_sets])

/-! ### Claim C9: ordering of the emitted rules -/

/-- C9: a successfully returned rule list equals the flat spec ordering:
grouped by originating frequent itemset in the dict's first-insertion
iteration order, then by ascending antecedent size, then in the
candidate-enumeration order of the slice, with no secondary reordering. -/
theorem C9_ordering {min_conf : ℚ} {fis : Dict} {total : Nat}
    {rs : List Rule} (h : generate_rules min_conf fis total = some rs) :
    rs = rulesSpec min_conf fis total :=
  generate_rules_some_eq h

/-- C9 witness at a concrete filtered dict. -/
theorem C9_ordering_witness :
    [(⟨["b"], {"a"}, 1, 1⟩ : Rule)]
      = rulesSpec (3/4) [(["a"], 3), (["b"], 2), (["a", "b"], 2)] 3 :=
  C9_ordering (show generate_rules (3/4)
      [(["a"], 3), (["b"], 2), (["a", "b"], 2)] 3
      = some [⟨["b"], {"a"}, 1, 1⟩] by
    norm_num [generate_rules, keys, rulesLoop, itemsetLoop, sliceStep,
      relSupports, processAntecedents, ruleOf, checkedDiv, dictGet,
      List.range', combinations, List.cons_ne_nil, ne_eq, List.cons.injEq,
      (by decide : ("a" : String) ≠ "b"),
      (by decide : ¬(["a"] : Itemset) = ["a", "b"]),
      (by decide : ¬(["b"] : Itemset) = ["a", "b"]),
      (by decide : ¬(["a"] : Itemset) = ["b"])])

/-! ### Claim C10: empty input -/

/-- C10: on the empty transaction list the pipeline returns the empty rule
list: the count dict is empty, so the support filter evaluates no quotient
and `total_transactions = 0` causes no division failure. -/
theorem C10_empty_input (min_support min_conf : ℚ) :
    analyze_associations min_support min_conf [] = some [] := rfl
